import Mathlib

/-!
Shallow embedding of the IMS ("Install My Stuff") event-log core
(`src/ims/ims.py`, class `IMS` and its two event sequences held in
`IMSData`).  Events are the four record shapes appended to the
`uncommitted` and `committed` lists; the operations below mirror the
bodies of `install_package`, `remove_package`, `commit_packages`,
`add_tag`, `get_packages_at_tag` and `generate_install_script`.
External process execution is out of scope: each install/remove step
takes the outcome of the already-run command as a parameter.
-/

set_option autoImplicit false

namespace IMS

/-- One log record, discriminated by the `action` field of the Python
dict: `install`, `remove`, `commit` or `tag`, each with the fields the
code writes for that action. -/
inductive Event : Type where
  | install (package_name : String) (package_manager_name : String)
      (package_manager_command : List String) (date : String) (state : String)
  | remove (package_name : String) (package_manager_name : String)
      (package_manager_command : List String) (date : String) (state : String)
  | commit (date : String) (packages_count : Nat)
  | tag (tag_name : String) (date : String)
  deriving DecidableEq, Repr

/-- The two in-memory sequences of `IMSData`: `self.uncommitted` and
`self.committed`. -/
structure IMSState : Type where
  uncommitted : List Event
  committed : List Event
  deriving DecidableEq, Repr

/-- Python truthiness of the `Optional[str]` tag argument: `None` and
the empty string are falsy (`if tag and ...` / `if not tag`). -/
def pyTruthy : Option String → Bool
  | none => false
  | some s => !(s == "")

/-- Whether an entry is a `tag` event whose `tag_name` equals `n`
(`entry.get("action") == "tag" and entry.get("tag_name") == n`). -/
def isTagNamed (n : String) : Event → Bool
  | Event.tag m _ => m == n
  | _ => false

/-- Whether an entry is an `install` event (`entry["action"] == "install"`). -/
def isInstallEvent : Event → Bool
  | Event.install _ _ _ _ _ => true
  | _ => false

/-- The reconstruction key of an entry, the Python f-string
`f"{entry['package_manager_name']}:{entry['package_name']}"`
(empty for `commit` and `tag` events, which are never keyed). -/
def eventKey : Event → String
  | Event.install p m _ _ _ => m ++ ":" ++ p
  | Event.remove p m _ _ _ => m ++ ":" ++ p
  | _ => ""

/-- The `state` field of an entry (`commit` and `tag` events carry no
state; they never reach the accesses that read it). -/
def eventState : Event → String
  | Event.install _ _ _ _ s => s
  | Event.remove _ _ _ _ s => s
  | _ => ""

/-- The `package_manager_command` field of an entry. -/
def eventCmd : Event → List String
  | Event.install _ _ c _ _ => c
  | Event.remove _ _ c _ _ => c
  | _ => []

/-- Insertion into the Python dict `installed_packages`: an existing
key keeps its position and gets the new value, a new key is appended. -/
def upsert (k : String) (v : Event) : List (String × Event) → List (String × Event)
  | [] => [(k, v)]
  | (k', v') :: rest => if k' == k then (k, v) :: rest else (k', v') :: upsert k v rest

/-- `installed_packages.pop(key, None)`: drop the entry with this key,
if present. -/
def delKey (k : String) : List (String × Event) → List (String × Event)
  | [] => []
  | (k', v') :: rest => if k' == k then rest else (k', v') :: delKey k rest

/-- The body of the replay loop of `get_packages_at_tag` for one
committed entry: `install` upserts under its key, `remove` pops its
key, `commit` and `tag` entries are inert. -/
def applyEvent (m : List (String × Event)) (e : Event) : List (String × Event) :=
  match e with
  | Event.install _ _ _ _ _ => upsert (eventKey e) e m
  | Event.remove _ _ _ _ _ => delKey (eventKey e) m
  | _ => m

/-- The `break` condition of the replay loop:
`tag and entry.get("action") == "tag" and entry.get("tag_name") == tag`. -/
def stopHere (tag : Option String) (e : Event) : Bool :=
  match tag, e with
  | some s, Event.tag n _ => (!(s == "")) && (n == s)
  | _, _ => false

/-- The `for entry in self.data.committed` loop of
`get_packages_at_tag`: fold entries into the dict, breaking at a
matching tag event. -/
def replayCommitted (tag : Option String) (m : List (String × Event)) :
    List Event → List (String × Event)
  | [] => m
  | e :: rest => if stopHere tag e then m else replayCommitted tag (applyEvent m e) rest

/-- The `for entry in self.data.uncommitted` loop of
`get_packages_at_tag`: upsert each `install` entry. -/
def foldUncStep (m : List (String × Event)) (e : Event) : List (String × Event) :=
  match e with
  | Event.install _ _ _ _ _ => upsert (eventKey e) e m
  | _ => m

/-- `IMS.get_packages_at_tag`: replay `committed` (stopping at a
matching tag when the tag argument is truthy), fold in uncommitted
installs when the tag argument is falsy, and return the dict values. -/
def get_packages_at_tag (st : IMSState) (tag : Option String) : List Event :=
  let m := replayCommitted tag [] st.committed
  let m2 := if pyTruthy tag then m else st.uncommitted.foldl foldUncStep m
  m2.map Prod.snd

/-- `get_packages_at_tag` in state-passing form: the method only reads
`self.data.committed` and `self.data.uncommitted` and never assigns to
them, so its embedding returns the state it was given. -/
def get_packages_at_tag_run (st : IMSState) (tag : Option String) :
    List Event × IMSState :=
  (get_packages_at_tag st tag, st)

/-- Outcome of the external package-manager command: `success` is exit
status 0; `failure` covers a non-zero exit (raised as
`CalledProcessError` under `check=True`) and a failure to launch. -/
inductive CmdResult : Type where
  | success
  | failure
  deriving DecidableEq

/-- `IMS.install_package` after command resolution: on success build
the `install` entry with state per `commit_immediately` and append it
to the matching sequence; on failure only report, mutating nothing. -/
def install_package (st : IMSState) (pm_command : List String)
    (pm_name package_name date : String) (commit_immediately : Bool)
    (res : CmdResult) : IMSState :=
  match res with
  | CmdResult.failure => st
  | CmdResult.success =>
    let cmd := pm_command ++ [package_name]
    let entry := Event.install package_name pm_name cmd date
      (if commit_immediately then "committed" else "uncommitted")
    if commit_immediately then { st with committed := st.committed ++ [entry] }
    else { st with uncommitted := st.uncommitted ++ [entry] }

/-- The match test of the uncommitted-cancellation loop in
`remove_package`: `entry["package_name"] == package_name and
entry["package_manager_name"] == pm_name` and then
`entry["action"] == "install"`. -/
def matchesInstall (pm_name package_name : String) : Event → Bool
  | Event.install p m _ _ _ => p == package_name && m == pm_name
  | _ => false

/-- The `for i, entry in enumerate(self.data.uncommitted)` loop of
`remove_package`, which pops matching entries while iterating: after
`pop(i)` the live-list iterator's next index is `i + 1`, so the
element that slid into slot `i` is kept without being examined. -/
def remove_uncommitted_scan (p : Event → Bool) : List Event → List Event
  | [] => []
  | x :: xs =>
    if p x then
      match xs with
      | [] => []
      | y :: ys => y :: remove_uncommitted_scan p ys
    else x :: remove_uncommitted_scan p xs

/-- `IMS.remove_package` after command resolution: on success run the
cancellation scan over `uncommitted`, then unconditionally append a
committed `remove` entry; on failure only report, mutating nothing. -/
def remove_package (st : IMSState) (pm_command : List String)
    (pm_name package_name date : String) (res : CmdResult) : IMSState :=
  match res with
  | CmdResult.failure => st
  | CmdResult.success =>
    let cmd := pm_command ++ [package_name]
    { uncommitted := remove_uncommitted_scan (matchesInstall pm_name package_name) st.uncommitted,
      committed := st.committed ++
        [Event.remove package_name pm_name cmd date "committed"] }

/-- `entry["state"] = "committed"` as performed by `commit_packages`
on the entries of `uncommitted` (which holds only `install` entries in
every reachable state; the state field of `remove` entries is covered
for totality, `commit` and `tag` entries carry none). -/
def setStateCommitted : Event → Event
  | Event.install p m c d _ => Event.install p m c d "committed"
  | Event.remove p m c d _ => Event.remove p m c d "committed"
  | e => e

/-- `IMS.commit_packages`: no-op on an empty `uncommitted`; otherwise
move every uncommitted entry to `committed` in order with its state
set to committed, append one `commit` entry counting them, and clear
`uncommitted`. -/
def commit_packages (st : IMSState) (now : String) : IMSState :=
  if st.uncommitted.isEmpty then st
  else
    { uncommitted := [],
      committed := st.committed ++ st.uncommitted.map setStateCommitted ++
        [Event.commit now st.uncommitted.length] }

/-- `IMS.add_tag`: the code first builds the tag entry, but the
duplicate-check loop `for i, entry in enumerate(self.data.committed)`
reuses the name `entry`, so after a full scan of a non-empty list
`entry` is the last committed element and that element — not the tag —
is appended.  Only with an empty `committed` does the tag survive. -/
def add_tag (st : IMSState) (tag_name now : String) : IMSState :=
  if st.committed.any (isTagNamed tag_name) then st
  else
    let appended :=
      match st.committed.getLast? with
      | none => Event.tag tag_name now
      | some lastE => lastE
    { st with committed := st.committed ++ [appended] }

/-- `IMS.generate_install_script` body loop: one output line per
reconstructed entry whose state is committed, in reconstruction order;
each line is the space-join of the stored command followed by the
literal trailing space the code writes before the newline. -/
def generate_install_script (st : IMSState) (tag : Option String) : List String :=
  let packages := get_packages_at_tag st tag
  packages.foldl
    (fun acc pkg =>
      if eventState pkg == "committed" then
        acc ++ [String.intercalate " " (eventCmd pkg) ++ " "]
      else acc)
    []

end IMS

namespace IMS

/-! ### Lemmas about the cancellation scan of `remove_package` -/

theorem remove_uncommitted_scan_sublist (p : Event → Bool) :
    ∀ l : List Event, (remove_uncommitted_scan p l).Sublist l
  | [] => by simp [remove_uncommitted_scan]
  | [x] => by
    by_cases h : p x <;> simp [remove_uncommitted_scan, h]
  | x :: y :: ys => by
    by_cases h : p x
    · simpa [remove_uncommitted_scan, h] using
        List.Sublist.cons x (List.Sublist.cons₂ y (remove_uncommitted_scan_sublist p ys))
    · simpa [remove_uncommitted_scan, h] using
        List.Sublist.cons₂ x (remove_uncommitted_scan_sublist p (y :: ys))

theorem remove_uncommitted_scan_filter (p : Event → Bool) :
    ∀ l : List Event,
      (remove_uncommitted_scan p l).filter (fun x => !(p x)) =
        l.filter (fun x => !(p x))
  | [] => rfl
  | [x] => by
    by_cases h : p x <;> simp [remove_uncommitted_scan, List.filter_cons, h]
  | x :: y :: ys => by
    have ih1 := remove_uncommitted_scan_filter p ys
    have ih2 := remove_uncommitted_scan_filter p (y :: ys)
    by_cases h : p x
    · by_cases hy : p y <;>
        simp [remove_uncommitted_scan, List.filter_cons, h, hy, ih1]
    · simp [remove_uncommitted_scan, List.filter_cons, h, ih2]

theorem remove_uncommitted_scan_cons_neg (p : Event → Bool) (x : Event)
    (xs : List Event) (h : p x = false) :
    remove_uncommitted_scan p (x :: xs) = x :: remove_uncommitted_scan p xs := by
  cases xs <;> simp [remove_uncommitted_scan, h]

theorem remove_uncommitted_scan_first (p : Event → Bool) :
    ∀ (l1 : List Event) (e : Event) (l2 : List Event),
      (∀ x ∈ l1, p x = false) → p e = true →
      remove_uncommitted_scan p (l1 ++ e :: l2) =
        l1 ++ (match l2 with
               | [] => []
               | y :: ys => y :: remove_uncommitted_scan p ys)
  | [], e, l2 => fun _ he => by
    cases l2 <;> simp [remove_uncommitted_scan, he]
  | x :: l1, e, l2 => fun h he => by
    have hx : p x = false := h x (List.mem_cons_self x l1)
    have ih := remove_uncommitted_scan_first p l1 e l2
      (fun z hz => h z (List.mem_cons_of_mem x hz)) he
    rw [List.cons_append, remove_uncommitted_scan_cons_neg p x _ hx, ih,
      List.cons_append]

/-! ### Lemmas about the replay loop -/

theorem stopHere_none (e : Event) : stopHere none e = false := by
  cases e <;> simp [stopHere]

theorem stopHere_some_empty (e : Event) : stopHere (some "") e = false := by
  cases e <;> simp [stopHere]

theorem replayCommitted_some_empty :
    ∀ (l : List Event) (m : List (String × Event)),
      replayCommitted (some "") m l = replayCommitted none m l
  | [], _ => rfl
  | e :: l, m => by
    simp [replayCommitted, stopHere_some_empty, stopHere_none,
      replayCommitted_some_empty l (applyEvent m e)]

theorem replayCommitted_of_no_tag (s : String) :
    ∀ (l : List Event) (m : List (String × Event)),
      (∀ e ∈ l, isTagNamed s e = false) →
      replayCommitted (some s) m l = replayCommitted none m l
  | [], _ => fun _ => rfl
  | e :: l, m => fun h => by
    have he : stopHere (some s) e = false := by
      have := h e (List.mem_cons_self e l)
      cases e <;> simp_all [stopHere, isTagNamed]
    have ih := replayCommitted_of_no_tag s l (applyEvent m e)
      (fun z hz => h z (List.mem_cons_of_mem e hz))
    simp [replayCommitted, he, stopHere_none, ih]

theorem replayCommitted_stops (s d : String) :
    ∀ (l1 l2 : List Event) (m : List (String × Event)),
      s ≠ "" → (∀ e ∈ l1, isTagNamed s e = false) →
      replayCommitted (some s) m (l1 ++ Event.tag s d :: l2) =
        replayCommitted none m l1
  | [], l2, m => fun hs _ => by
    have hstop : stopHere (some s) (Event.tag s d) = true := by
      simp [stopHere, beq_eq_false_iff_ne.mpr hs]
    simp [replayCommitted, hstop]
  | x :: l1, l2, m => fun hs h => by
    have hx : stopHere (some s) x = false := by
      have := h x (List.mem_cons_self x l1)
      cases x <;> simp_all [stopHere, isTagNamed]
    have ih := replayCommitted_stops s d l1 l2 (applyEvent m x) hs
      (fun z hz => h z (List.mem_cons_of_mem x hz))
    simp [replayCommitted, hx, stopHere_none, ih]

/-! ### Lemmas about the reconstruction dict -/

theorem mem_upsert (k : String) (v : Event) :
    ∀ (m : List (String × Event)) (q : String × Event),
      q ∈ upsert k v m → q = (k, v) ∨ q ∈ m
  | [], q => by simp [upsert]
  | (a, b) :: rest, q => by
    by_cases hab : a = k
    · intro hq
      simp [upsert, hab] at hq
      rcases hq with hq | hq
      · exact Or.inl (by simp [hq])
      · exact Or.inr (List.mem_cons_of_mem _ hq)
    · intro hq
      simp [upsert, hab] at hq
      rcases hq with hq | hq
      · exact Or.inr (by simp [hq])
      · rcases mem_upsert k v rest q hq with h | h
        · exact Or.inl h
        · exact Or.inr (List.mem_cons_of_mem _ h)

theorem delKey_sublist (k : String) :
    ∀ m : List (String × Event), (delKey k m).Sublist m
  | [] => by simp [delKey]
  | (a, b) :: rest => by
    by_cases hab : a = k
    · simp [delKey, hab]
    · simpa [delKey, hab] using List.Sublist.cons₂ (a, b) (delKey_sublist k rest)

theorem mem_applyEvent (m : List (String × Event)) (e : Event) (q : String × Event)
    (hq : q ∈ applyEvent m e) : q.1 = eventKey q.2 ∨ q ∈ m := by
  cases e with
  | install p pm c d s =>
    rcases mem_upsert _ _ m q (by simpa [applyEvent] using hq) with h | h
    · exact Or.inl (by simp [h])
    · exact Or.inr h
  | remove p pm c d s =>
    exact Or.inr ((delKey_sublist _ m).subset (by simpa [applyEvent] using hq))
  | commit d n => exact Or.inr (by simpa [applyEvent] using hq)
  | tag n d => exact Or.inr (by simpa [applyEvent] using hq)

theorem mem_replayCommitted (tag : Option String) :
    ∀ (l : List Event) (m : List (String × Event)) (q : String × Event),
      q ∈ replayCommitted tag m l → q.1 = eventKey q.2 ∨ q ∈ m
  | [], _, _ => fun h => Or.inr h
  | e :: l, m, q => fun h => by
    cases hstop : stopHere tag e with
    | true => exact Or.inr (by simpa [replayCommitted, hstop] using h)
    | false =>
      have h' : q ∈ replayCommitted tag (applyEvent m e) l := by
        simpa [replayCommitted, hstop] using h
      rcases mem_replayCommitted tag l (applyEvent m e) q h' with h1 | h1
      · exact Or.inl h1
      · exact mem_applyEvent m e q h1

theorem mem_foldUncStep (m : List (String × Event)) (e : Event) (q : String × Event)
    (hq : q ∈ foldUncStep m e) : q.1 = eventKey q.2 ∨ q ∈ m := by
  cases e with
  | install p pm c d s =>
    rcases mem_upsert _ _ m q (by simpa [foldUncStep] using hq) with h | h
    · exact Or.inl (by simp [h])
    · exact Or.inr h
  | remove p pm c d s => exact Or.inr (by simpa [foldUncStep] using hq)
  | commit d n => exact Or.inr (by simpa [foldUncStep] using hq)
  | tag n d => exact Or.inr (by simpa [foldUncStep] using hq)

theorem mem_foldUnc :
    ∀ (l : List Event) (m : List (String × Event)) (q : String × Event),
      q ∈ List.foldl foldUncStep m l → q.1 = eventKey q.2 ∨ q ∈ m
  | [], _, _ => fun h => Or.inr h
  | e :: l, m, q => fun h => by
    rcases mem_foldUnc l (foldUncStep m e) q h with h1 | h1
    · exact Or.inl h1
    · exact mem_foldUncStep m e q h1

theorem mem_keys_upsert_self (k : String) (v : Event) :
    ∀ m : List (String × Event), k ∈ (upsert k v m).map Prod.fst
  | [] => by simp [upsert]
  | (a, b) :: rest => by
    by_cases hab : a = k
    · simp [upsert, hab]
    · simp [upsert, hab, mem_keys_upsert_self k v rest]

theorem upsert_cons_eq (k : String) (v : Event) (a : String) (b : Event)
    (rest : List (String × Event)) (h : a = k) :
    upsert k v ((a, b) :: rest) = (k, v) :: rest := by
  simp [upsert, h]

theorem upsert_cons_ne (k : String) (v : Event) (a : String) (b : Event)
    (rest : List (String × Event)) (h : ¬a = k) :
    upsert k v ((a, b) :: rest) = (a, b) :: upsert k v rest := by
  simp [upsert, h]

theorem mem_keys_upsert_mono (k k' : String) (v : Event) :
    ∀ m : List (String × Event),
      k ∈ m.map Prod.fst → k ∈ (upsert k' v m).map Prod.fst
  | [] => by simp
  | (a, b) :: rest => fun hk => by
    simp only [List.map_cons, List.mem_cons] at hk
    by_cases hab : a = k'
    · rw [upsert_cons_eq k' v a b rest hab]
      simp only [List.map_cons, List.mem_cons]
      rcases hk with rfl | hk'
      · exact Or.inl hab
      · exact Or.inr hk'
    · rw [upsert_cons_ne k' v a b rest hab]
      simp only [List.map_cons, List.mem_cons]
      rcases hk with rfl | hk'
      · exact Or.inl rfl
      · exact Or.inr (mem_keys_upsert_mono k k' v rest hk')

theorem mem_keys_foldUnc_mono (k : String) :
    ∀ (l : List Event) (m : List (String × Event)),
      k ∈ m.map Prod.fst → k ∈ (List.foldl foldUncStep m l).map Prod.fst
  | [], _ => fun hk => hk
  | e :: l, m => fun hk => by
    have hstep : k ∈ (foldUncStep m e).map Prod.fst := by
      cases e with
      | install p pm c d s => exact mem_keys_upsert_mono k _ _ m hk
      | remove p pm c d s => exact hk
      | commit d n => exact hk
      | tag n d => exact hk
    exact mem_keys_foldUnc_mono k l (foldUncStep m e) hstep

theorem key_mem_foldUnc (e : Event) (he : isInstallEvent e = true) :
    ∀ (l : List Event) (m : List (String × Event)),
      e ∈ l → eventKey e ∈ (List.foldl foldUncStep m l).map Prod.fst
  | [], _ => fun hmem => absurd hmem (List.not_mem_nil e)
  | x :: l, m => fun hmem => by
    rcases List.mem_cons.mp hmem with rfl | hmem'
    · have hstep : eventKey e ∈ (foldUncStep m e).map Prod.fst := by
        cases e with
        | install p pm c d s => exact mem_keys_upsert_self _ _ m
        | remove p pm c d s => exact absurd he (by simp [isInstallEvent])
        | commit d n => exact absurd he (by simp [isInstallEvent])
        | tag n d => exact absurd he (by simp [isInstallEvent])
      exact mem_keys_foldUnc_mono _ l _ hstep
    · exact key_mem_foldUnc e he l (foldUncStep m x) hmem'

/-! ### Lemma relating the script loop to filter and map -/

theorem foldl_script_eq (f : Event → String) (p : Event → Bool) :
    ∀ (l : List Event) (acc : List String),
      l.foldl (fun a e => if p e then a ++ [f e] else a) acc =
        acc ++ (l.filter p).map f
  | [], acc => by simp
  | e :: l, acc => by
    cases h : p e <;>
      simp [List.filter_cons, h, foldl_script_eq f p l, List.append_assoc]

/-! ### Claim theorems -/

/-- C6: for every install or remove invocation whose external command
exits non-zero or fails to launch, both event sequences are left
exactly as they were: no event is appended or removed on failure. -/
theorem C6_failure_no_log_mutation (st : IMSState) (pm_command : List String)
    (pm_name package_name date : String) (commit_immediately : Bool) :
    install_package st pm_command pm_name package_name date commit_immediately
        CmdResult.failure = st ∧
    remove_package st pm_command pm_name package_name date CmdResult.failure = st :=
  ⟨rfl, rfl⟩

/-- C8: `generate_install_script` emits, for exactly the reconstructed
entries whose state is committed (uncommitted entries are skipped), one
line per entry in the reconstruction's order, each line joining the
entry's stored command tokens with single spaces (the code adds one
trailing space before the newline). -/
theorem C8_generate_install_script_committed_lines (st : IMSState)
    (tag : Option String) :
    generate_install_script st tag =
      ((get_packages_at_tag st tag).filter
          (fun e => eventState e == "committed")).map
        (fun e => String.intercalate " " (eventCmd e) ++ " ") := by
  simpa [generate_install_script] using
    foldl_script_eq (fun e => String.intercalate " " (eventCmd e) ++ " ")
      (fun e => eventState e == "committed") (get_packages_at_tag st tag) []

/-- C9: reconstruction is deterministic and read-only: the state-passing
form of `get_packages_at_tag` returns the log unchanged, and a second
call on the state left by the first returns the identical result. -/
theorem C9_reconstruction_deterministic_read_only (st : IMSState)
    (tag : Option String) :
    (get_packages_at_tag_run st tag).2 = st ∧
    (get_packages_at_tag_run ((get_packages_at_tag_run st tag).2) tag).1 =
      (get_packages_at_tag_run st tag).1 :=
  ⟨rfl, rfl⟩

/-- C10: requesting the empty string as the tag behaves exactly like
requesting no tag: the replay never stops (the Python condition
`tag and ...` is falsy) and uncommitted installs are folded in
(`if not tag` is taken). -/
theorem C10_empty_tag_behaves_as_none (st : IMSState) :
    get_packages_at_tag st (some "") = get_packages_at_tag st none := by
  unfold get_packages_at_tag
  simp [pyTruthy, replayCommitted_some_empty st.committed []]

/-- C1: refuted by the code on any non-empty committed sequence.  The
claim says `add_tag` appends exactly one tag event named N when none
exists, but the duplicate-check loop in `IMS.add_tag` reuses the
variable `entry`, so after scanning a non-empty `committed` the value
appended is the last existing committed entry, not the tag: here a
second copy of the install event is appended and no tag event named
"v1" exists afterwards, contradicting the method's own docstring and
its "Added tag" message. -/
theorem C1_add_tag_appends_duplicate_not_tag :
    (add_tag
        ⟨[], [Event.install "foo" "apt" ["i", "foo"] "d0" "committed"]⟩
        "v1" "d1").committed =
      [Event.install "foo" "apt" ["i", "foo"] "d0" "committed",
       Event.install "foo" "apt" ["i", "foo"] "d0" "committed"] ∧
    List.countP (isTagNamed "v1")
      (add_tag
        ⟨[], [Event.install "foo" "apt" ["i", "foo"] "d0" "committed"]⟩
        "v1" "d1").committed = 0 := by
  decide

/-- C7: refuted by the code.  Starting from an empty log, `add_tag "v1"`
correctly records the tag (the shadowing loop never runs on an empty
list), but the subsequent `add_tag "v2"` appends the last committed
entry — the "v1" tag — instead of a "v2" tag, leaving two tag events
named "v1" in a reachable committed sequence and violating tag-name
uniqueness. -/
theorem C7_tag_name_uniqueness_violated :
    (add_tag (add_tag ⟨[], []⟩ "v1" "d1") "v2" "d2").committed =
      [Event.tag "v1" "d1", Event.tag "v1" "d1"] ∧
    List.countP (isTagNamed "v1")
      (add_tag (add_tag ⟨[], []⟩ "v1" "d1") "v2" "d2").committed = 2 := by
  decide

/-- C2 counterexample: with uncommitted installs p, q, p (p matching
the removal, q not), a successful remove of p cancels BOTH p entries,
not only the first: popping index 0 makes the live-list iterator skip
q's new neighbour and land on the second p, which is popped too.  The
claim's predicted result, first match removed and later matches
untouched, would be the two-element list holding q and the second p;
the code leaves only q. -/
theorem C2_remove_also_removes_later_match :
    (remove_package
        ⟨[Event.install "p" "apt" ["u", "p"] "d0" "uncommitted",
          Event.install "q" "apt" ["u", "q"] "d1" "uncommitted",
          Event.install "p" "apt" ["u", "p"] "d2" "uncommitted"], []⟩
        ["u"] "apt" "p" "d3" CmdResult.success).uncommitted =
      [Event.install "q" "apt" ["u", "q"] "d1" "uncommitted"] := by
  decide

/-- C2 (amended): on a successful remove of (M, P), exactly one remove
event with state committed for (M, P) is appended to committed; the
cancellation scan removes the first matching uncommitted install event
and never removes or reorders non-matching events, but, because the
list is popped while being iterated, the element immediately after a
removal is skipped and later matching install events reached by the
scan are removed as well. -/
theorem C2_remove_package_amended (st : IMSState) (pm_command : List String)
    (pm_name package_name date : String) :
    (remove_package st pm_command pm_name package_name date
        CmdResult.success).committed =
      st.committed ++
        [Event.remove package_name pm_name (pm_command ++ [package_name])
          date "committed"] ∧
    ((remove_package st pm_command pm_name package_name date
        CmdResult.success).uncommitted).Sublist st.uncommitted ∧
    (remove_package st pm_command pm_name package_name date
        CmdResult.success).uncommitted.filter
        (fun x => !(matchesInstall pm_name package_name x)) =
      st.uncommitted.filter (fun x => !(matchesInstall pm_name package_name x)) ∧
    ∀ (l1 : List Event) (e : Event) (l2 : List Event),
      st.uncommitted = l1 ++ e :: l2 →
      (∀ x ∈ l1, matchesInstall pm_name package_name x = false) →
      matchesInstall pm_name package_name e = true →
      (remove_package st pm_command pm_name package_name date
          CmdResult.success).uncommitted =
        l1 ++ (match l2 with
               | [] => []
               | y :: ys =>
                 y :: remove_uncommitted_scan
                   (matchesInstall pm_name package_name) ys) := by
  refine ⟨rfl, remove_uncommitted_scan_sublist _ _,
    remove_uncommitted_scan_filter _ _, ?_⟩
  intro l1 e l2 hdec h1 he
  show remove_uncommitted_scan (matchesInstall pm_name package_name)
      st.uncommitted = _
  rw [hdec]
  exact remove_uncommitted_scan_first _ l1 e l2 h1 he

/-- C2 amended claim at a concrete input: one non-matching install
followed by one matching install; the matching one is removed, the
other kept, and the committed remove event is appended. -/
theorem C2_remove_package_amended_witness :
    (remove_package
        ⟨[Event.install "q" "apt" ["u", "q"] "d1" "uncommitted",
          Event.install "p" "apt" ["u", "p"] "d2" "uncommitted"], []⟩
        ["u"] "apt" "p" "d3" CmdResult.success).uncommitted =
      [Event.install "q" "apt" ["u", "q"] "d1" "uncommitted"] ∧
    (remove_package
        ⟨[Event.install "q" "apt" ["u", "q"] "d1" "uncommitted",
          Event.install "p" "apt" ["u", "p"] "d2" "uncommitted"], []⟩
        ["u"] "apt" "p" "d3" CmdResult.success).committed =
      [Event.remove "p" "apt" ["u", "p"] "d3" "committed"] := by
  have h := C2_remove_package_amended
    ⟨[Event.install "q" "apt" ["u", "q"] "d1" "uncommitted",
      Event.install "p" "apt" ["u", "p"] "d2" "uncommitted"], []⟩
    ["u"] "apt" "p" "d3"
  refine ⟨?_, h.1⟩
  have h4 := h.2.2.2 [Event.install "q" "apt" ["u", "q"] "d1" "uncommitted"]
    (Event.install "p" "apt" ["u", "p"] "d2" "uncommitted") [] rfl
    (by decide) (by decide)
  simpa using h4

/-- C3: when committed splits as a prefix with no tag event named T,
the first tag event named T, and an arbitrary suffix, reconstruction
at T replays exactly the prefix: the result equals a plain full replay
of the prefix alone (so the tag event itself, everything after it, and
all uncommitted events have no effect). -/
theorem C3_tag_boundary_exclusion (u l1 l2 : List Event) (T d : String)
    (hT : T ≠ "") (h1 : ∀ e ∈ l1, isTagNamed T e = false) :
    get_packages_at_tag ⟨u, l1 ++ Event.tag T d :: l2⟩ (some T) =
      get_packages_at_tag ⟨[], l1⟩ none := by
  unfold get_packages_at_tag
  have hrep := replayCommitted_stops T d l1 l2 [] hT h1
  have hpt : pyTruthy (some T) = true := by
    simp [pyTruthy, beq_eq_false_iff_ne.mpr hT]
  simp [hrep, hpt, pyTruthy, hT]

/-- C3 at the spec's concrete scenario: committed is
[install A, tag "t1", remove A]; reconstruction at "t1" equals the
replay of [install A] alone and contains A, while reconstruction with
no tag replays the removal too and is empty. -/
theorem C3_tag_boundary_exclusion_witness :
    get_packages_at_tag
        ⟨[], [Event.install "A" "apt" ["i", "A"] "d1" "committed",
              Event.tag "t1" "d2",
              Event.remove "A" "apt" ["r", "A"] "d3" "committed"]⟩
        (some "t1") =
      get_packages_at_tag
        ⟨[], [Event.install "A" "apt" ["i", "A"] "d1" "committed"]⟩ none ∧
    get_packages_at_tag
        ⟨[], [Event.install "A" "apt" ["i", "A"] "d1" "committed",
              Event.tag "t1" "d2",
              Event.remove "A" "apt" ["r", "A"] "d3" "committed"]⟩
        (some "t1") =
      [Event.install "A" "apt" ["i", "A"] "d1" "committed"] ∧
    get_packages_at_tag
        ⟨[], [Event.install "A" "apt" ["i", "A"] "d1" "committed",
              Event.tag "t1" "d2",
              Event.remove "A" "apt" ["r", "A"] "d3" "committed"]⟩
        none = [] := by
  refine ⟨C3_tag_boundary_exclusion []
    [Event.install "A" "apt" ["i", "A"] "d1" "committed"]
    [Event.remove "A" "apt" ["r", "A"] "d3" "committed"]
    "t1" "d2" (by decide) (by decide), by decide, by decide⟩

/-- C4: with no tag requested, every uncommitted install event is
folded into the reconstruction (an entry with its key is present in
the result); with a truthy tag requested that matches no tag event in
committed, the result equals the full committed replay with no
uncommitted events included. -/
theorem C4_untagged_folds_uncommitted_absent_tag_full_replay
    (st : IMSState) (s : String) :
    (∀ e ∈ st.uncommitted, isInstallEvent e = true →
      ∃ e', e' ∈ get_packages_at_tag st none ∧ eventKey e' = eventKey e) ∧
    (s ≠ "" → (∀ e ∈ st.committed, isTagNamed s e = false) →
      get_packages_at_tag st (some s) =
        get_packages_at_tag ⟨[], st.committed⟩ none) := by
  constructor
  · intro e he hei
    have hkey : eventKey e ∈
        (List.foldl foldUncStep (replayCommitted none [] st.committed)
          st.uncommitted).map Prod.fst :=
      key_mem_foldUnc e hei st.uncommitted _ he
    rcases List.mem_map.mp hkey with ⟨q, hq, hq1⟩
    have hwf : q.1 = eventKey q.2 := by
      rcases mem_foldUnc st.uncommitted _ q hq with h1 | h1
      · exact h1
      · rcases mem_replayCommitted none st.committed [] q h1 with h2 | h2
        · exact h2
        · exact absurd h2 (List.not_mem_nil q)
    refine ⟨q.2, ?_, by rw [← hwf, hq1]⟩
    have hnone : get_packages_at_tag st none =
        (List.foldl foldUncStep (replayCommitted none [] st.committed)
          st.uncommitted).map Prod.snd := rfl
    rw [hnone]
    exact List.mem_map.mpr ⟨q, hq, rfl⟩
  · intro hs hnone
    unfold get_packages_at_tag
    have hrep := replayCommitted_of_no_tag s st.committed [] hnone
    have hpt : pyTruthy (some s) = true := by
      simp [pyTruthy, beq_eq_false_iff_ne.mpr hs]
    simp [hrep, hpt, pyTruthy, hs]

/-- C4 at the spec's concrete scenario: committed holds install
apt:foo (committed), uncommitted holds install pip:bar; with no tag
the result is both, with the absent tag "anytag" the result is the
full committed replay, apt:foo only. -/
theorem C4_untagged_folds_uncommitted_absent_tag_full_replay_witness :
    (∃ e', e' ∈ get_packages_at_tag
        ⟨[Event.install "bar" "pip" ["pip", "bar"] "d2" "uncommitted"],
         [Event.install "foo" "apt" ["a", "foo"] "d1" "committed"]⟩ none ∧
      eventKey e' =
        eventKey (Event.install "bar" "pip" ["pip", "bar"] "d2" "uncommitted")) ∧
    get_packages_at_tag
        ⟨[Event.install "bar" "pip" ["pip", "bar"] "d2" "uncommitted"],
         [Event.install "foo" "apt" ["a", "foo"] "d1" "committed"]⟩
        (some "anytag") =
      get_packages_at_tag
        ⟨[], [Event.install "foo" "apt" ["a", "foo"] "d1" "committed"]⟩ none ∧
    get_packages_at_tag
        ⟨[Event.install "bar" "pip" ["pip", "bar"] "d2" "uncommitted"],
         [Event.install "foo" "apt" ["a", "foo"] "d1" "committed"]⟩ none =
      [Event.install "foo" "apt" ["a", "foo"] "d1" "committed",
       Event.install "bar" "pip" ["pip", "bar"] "d2" "uncommitted"] ∧
    get_packages_at_tag
        ⟨[Event.install "bar" "pip" ["pip", "bar"] "d2" "uncommitted"],
         [Event.install "foo" "apt" ["a", "foo"] "d1" "committed"]⟩
        (some "anytag") =
      [Event.install "foo" "apt" ["a", "foo"] "d1" "committed"] := by
  have h := C4_untagged_folds_uncommitted_absent_tag_full_replay
    ⟨[Event.install "bar" "pip" ["pip", "bar"] "d2" "uncommitted"],
     [Event.install "foo" "apt" ["a", "foo"] "d1" "committed"]⟩ "anytag"
  exact ⟨h.1 (Event.install "bar" "pip" ["pip", "bar"] "d2" "uncommitted")
      (by decide) (by decide),
    h.2 (by decide) (by decide), by decide, by decide⟩

/-- C5: on a log whose uncommitted sequence holds only install events
(the shape every reachable log has), commit is a no-op when that
sequence is empty; otherwise it empties it, extends committed by the
uncommitted events in original order with their state set to committed
followed by exactly one commit event whose packages_count is the prior
uncommitted length, and each uncommitted install reappears in
committed with only its state field changed. -/
theorem C5_commit_packages_spec (st : IMSState) (now : String)
    (_hu : ∀ e ∈ st.uncommitted, isInstallEvent e = true) :
    (st.uncommitted = [] → commit_packages st now = st) ∧
    (st.uncommitted ≠ [] →
      (commit_packages st now).uncommitted = [] ∧
      (commit_packages st now).committed =
        st.committed ++ st.uncommitted.map setStateCommitted ++
          [Event.commit now st.uncommitted.length] ∧
      ∀ (p m : String) (c : List String) (d s : String),
        Event.install p m c d s ∈ st.uncommitted →
        Event.install p m c d "committed" ∈ (commit_packages st now).committed) := by
  constructor
  · intro h
    simp [commit_packages, h]
  · intro h
    have hne : st.uncommitted.isEmpty = false := by
      simpa [List.isEmpty_iff] using h
    refine ⟨by simp [commit_packages, hne], by simp [commit_packages, hne], ?_⟩
    intro p m c d s hmem
    have hcp : (commit_packages st now).committed =
        st.committed ++ st.uncommitted.map setStateCommitted ++
          [Event.commit now st.uncommitted.length] := by
      simp [commit_packages, hne]
    rw [hcp]
    exact List.mem_append_left _
      (List.mem_append_right _
        (List.mem_map.mpr ⟨Event.install p m c d s, hmem, rfl⟩))

/-- C5 at a concrete input: one uncommitted install of apt:foo; commit
moves it to committed with state committed and appends a commit event
counting one package; and on the already-empty result a second commit
is a no-op. -/
theorem C5_commit_packages_spec_witness :
    (commit_packages
        ⟨[Event.install "foo" "apt" ["i", "foo"] "d1" "uncommitted"], []⟩
        "d2").uncommitted = [] ∧
    (commit_packages
        ⟨[Event.install "foo" "apt" ["i", "foo"] "d1" "uncommitted"], []⟩
        "d2").committed =
      [Event.install "foo" "apt" ["i", "foo"] "d1" "committed",
       Event.commit "d2" 1] ∧
    Event.install "foo" "apt" ["i", "foo"] "d1" "committed" ∈
      (commit_packages
        ⟨[Event.install "foo" "apt" ["i", "foo"] "d1" "uncommitted"], []⟩
        "d2").committed ∧
    commit_packages ⟨[], [Event.commit "d2" 1]⟩ "d3" =
      ⟨[], [Event.commit "d2" 1]⟩ := by
  have h := C5_commit_packages_spec
    ⟨[Event.install "foo" "apt" ["i", "foo"] "d1" "uncommitted"], []⟩
    "d2" (by decide)
  have h2 := h.2 (by decide)
  have h3 := C5_commit_packages_spec ⟨[], [Event.commit "d2" 1]⟩ "d3" (by decide)
  exact ⟨h2.1, by decide,
    h2.2.2 "foo" "apt" ["i", "foo"] "d1" "uncommitted" (by decide),
    h3.1 rfl⟩

end IMS
